import Mathlib

/-!
Shallow embedding of `chapter01/tic-tac-toe-sim/src/main.rs`: a bit-packed
tic-tac-toe board (`u32`, two bits per cell), a tabular TD(0) learner whose
value table is a `HashMap<u32, f32>`, and a referee loop (`play_game`).

Modelling conventions:
* `u32` board words become `Nat`; all bit operations (`&&&`, `|||`, `<<<`,
  `>>>`) act on `Nat` exactly as on the 18 low bits the program uses, and no
  operation in the program can carry into or depend on bits ≥ 32, so no
  wrap-around modelling is needed (`set` only ORs bits below 18 for indices
  below 9).
* `f32` values become `ℚ`, computed exactly; the literal `f32::MIN` becomes
  the exact rational value `-(2^128 - 2^104)` of that float.
* `HashMap<u32, f32>` becomes the function type `Nat → Option ℚ`.
* The two random draws (`rand::rng().next_u32()`) are oracle parameters: the
  Boolean `explore` stands for `next_u32() % 100 == 1`, and a `Nat` parameter
  stands for the draw that is reduced modulo the number of available moves.
* A Rust `panic!`/`expect` failure is modelled as `none`.
-/

namespace TicTacToe

/-- `WINNING_COMBINATIONS` from the source: 3 rows, 3 columns, 2 diagonals. -/
def WINNING_COMBINATIONS : List (List Nat) :=
  [[0, 1, 2], [3, 4, 5], [6, 7, 8],
   [0, 3, 6], [1, 4, 7], [2, 5, 8],
   [0, 4, 8], [2, 4, 6]]

/-- `DEFAULT_VALUE: f32 = 0.0`. -/
def DEFAULT_VALUE : ℚ := 0

/-- `struct Board { pub spaces: u32 }`. -/
structure Board where
  spaces : Nat
deriving DecidableEq

/-- `enum PlayerMarker { X, O }`. -/
inductive PlayerMarker where
  | X
  | O
deriving DecidableEq

/-- `PlayerMarker::player_char`. -/
def PlayerMarker.player_char : PlayerMarker → Char
  | .X => 'X'
  | .O => 'O'

/-- `PlayerMarker::player_mask`: X ↦ `0b11`, O ↦ `0b10`. -/
def PlayerMarker.player_mask : PlayerMarker → Nat
  | .X => 0b11
  | .O => 0b10

/-- `Board::new`: the empty board, `spaces = 0`. -/
def Board.new : Board := ⟨0b000000000000000000⟩

/-- `Board::at` (named `at'` because `at` is reserved in Lean): test X's
full 2-bit pattern first, then O's, else the blank character. -/
def Board.at' (b : Board) (index : Nat) : Char :=
  let x_mask := PlayerMarker.player_mask .X <<< (index * 2)
  let o_mask := PlayerMarker.player_mask .O <<< (index * 2)
  if b.spaces &&& x_mask == x_mask then 'X'
  else if b.spaces &&& o_mask == o_mask then 'O'
  else ' '

/-- `Board::check_winner`: some winning combination has all three cells
showing the player's character. -/
def Board.check_winner (b : Board) (player : PlayerMarker) : Bool :=
  WINNING_COMBINATIONS.any fun combo =>
    combo.all fun i => b.at' i == PlayerMarker.player_char player

/-- `Board::is_draw`: a single mask test of the occupied bit of all 9 cells. -/
def Board.is_draw (b : Board) : Bool :=
  b.spaces &&& 0b101010101010101010 == 0b101010101010101010

/-- `Board::available`: the full 2-bit field at `index` is `0b00`. -/
def Board.available (b : Board) (index : Nat) : Bool :=
  b.spaces &&& (0b11 <<< (index * 2)) == 0b0

/-- `Board::set`: OR the player's full 2-bit code into the field at `index`. -/
def Board.set (b : Board) (index : Nat) (value : PlayerMarker) : Board :=
  ⟨b.spaces ||| (value.player_mask <<< (index * 2))⟩

/-- `HashMap<u32, f32>` as a partial map; `none` means the key is absent. -/
def QTable : Type := Nat → Option ℚ

/-- `HashMap::insert` (also the effect of `Entry::insert`). -/
def QTable.insert (t : QTable) (k : Nat) (v : ℚ) : QTable :=
  fun k' => if k' = k then some v else t k'

/-- `update_q`: TD step `table[key] = current + 0.1 * (reward - current)`
with `current` the stored value, or `DEFAULT_VALUE = 0.0` when absent. -/
def update_q (q_table : QTable) (prev_board : Nat) (reward : ℚ) : QTable :=
  match q_table prev_board with
  | some prev_reward =>
      q_table.insert prev_board (prev_reward + (1 / 10) * (reward - prev_reward))
  | none =>
      q_table.insert prev_board (DEFAULT_VALUE + (1 / 10) * (reward - DEFAULT_VALUE))

/-- `enum Agent { Random, Human, RL(HashMap<u32, f32>, u32) }`. -/
inductive Agent where
  | Random
  | Human
  | RL (q_table : QTable) (prev_board : Nat)

/-- `Agent::report_win`: the RL agent updates `prev_board`'s entry toward
reward `+1.0` and resets `prev_board` to `0`; others keep no state
(the Human arm only prints). -/
def Agent.report_win (a : Agent) (_player : PlayerMarker) (_board : Board) : Agent :=
  match a with
  | .Random => .Random
  | .Human => .Human
  | .RL q_table prev_board => .RL (update_q q_table prev_board 1) 0

/-- `Agent::report_draw`: RL reward `-0.5`, then `prev_board = 0`. -/
def Agent.report_draw (a : Agent) (_board : Board) : Agent :=
  match a with
  | .Random => .Random
  | .Human => .Human
  | .RL q_table prev_board => .RL (update_q q_table prev_board (-(1 / 2))) 0

/-- `Agent::report_loss`: RL reward `-1.0`, then `prev_board = 0`. -/
def Agent.report_loss (a : Agent) (_player : PlayerMarker) (_board : Board) : Agent :=
  match a with
  | .Random => .Random
  | .Human => .Human
  | .RL q_table prev_board => .RL (update_q q_table prev_board (-1)) 0

/-- The entry stored for the looked-up key: present value or the default. -/
def QTable.getD0 (t : QTable) (k : Nat) : ℚ := (t k).getD 0

lemma QTable.insert_same (t : QTable) (k : Nat) (v : ℚ) : t.insert k v k = some v := by
  simp [QTable.insert]

lemma QTable.insert_other (t : QTable) (k k' : Nat) (v : ℚ) (h : k' ≠ k) :
    t.insert k v k' = t k' := by
  simp [QTable.insert, h]

/-- `update_q` writes exactly the TD combination of the old entry at the key. -/
lemma update_q_at (t : QTable) (k : Nat) (r : ℚ) :
    update_q t k r k = some (t.getD0 k + (1 / 10) * (r - t.getD0 k)) := by
  unfold update_q QTable.getD0
  cases h : t k <;> simp [h, QTable.insert, DEFAULT_VALUE]

/-- `update_q` leaves every other key unchanged. -/
lemma update_q_other (t : QTable) (k k' : Nat) (r : ℚ) (h : k' ≠ k) :
    update_q t k r k' = t k' := by
  unfold update_q
  cases ht : t k <;> simp [QTable.insert, h]

/-- The empty table (fresh `HashMap::new()`). -/
def emptyTable : QTable := fun _ => none

/-- The 2-bit cell field at `index`: the board word shifted down and masked.
All source queries (`at`, `available`, `is_draw`) are characterised by it. -/
def field (b : Board) (i : Nat) : Nat := (b.spaces >>> (i * 2)) &&& 3

/-- The board-representation invariant from the spec: every cell's 2-bit
field is one of `{0b00, 0b10, 0b11}`. -/
def WF (b : Board) : Prop := ∀ i < 9, field b i = 0 ∨ field b i = 2 ∨ field b i = 3

lemma set_spaces (b : Board) (i : Nat) (p : PlayerMarker) :
    (b.set i p).spaces = b.spaces ||| (p.player_mask <<< (i * 2)) := rfl

lemma and_mask_shift (s m k : Nat) : s &&& (m <<< k) = ((s >>> k) &&& m) <<< k := by
  apply Nat.eq_of_testBit_eq
  intro j
  simp only [Nat.testBit_and, Nat.testBit_shiftLeft, Nat.testBit_shiftRight]
  by_cases h : k ≤ j
  · rw [Nat.add_sub_cancel' h]
    cases s.testBit j <;> cases m.testBit (j - k) <;> simp [h]
  · simp [h]

lemma shiftLeft_cancel_iff (a b k : Nat) : a <<< k = b <<< k ↔ a = b := by
  simp only [Nat.shiftLeft_eq]
  exact ⟨fun h => Nat.eq_of_mul_eq_mul_right (Nat.two_pow_pos k) h, fun h => by rw [h]⟩

lemma x_cond_iff (b : Board) (i : Nat) :
    b.spaces &&& (3 <<< (i * 2)) = 3 <<< (i * 2) ↔ field b i = 3 := by
  rw [and_mask_shift, shiftLeft_cancel_iff]
  exact Iff.rfl

lemma shiftLeft_eq_zero_iff (a k : Nat) : a <<< k = 0 ↔ a = 0 := by
  rw [Nat.shiftLeft_eq, Nat.mul_eq_zero]
  have h2 : (2 : Nat) ^ k ≠ 0 := Nat.pos_iff_ne_zero.mp (Nat.two_pow_pos k)
  simp [h2]

lemma o_cond_iff (b : Board) (i : Nat) :
    b.spaces &&& (2 <<< (i * 2)) = 2 <<< (i * 2) ↔ field b i &&& 2 = 2 := by
  rw [and_mask_shift, shiftLeft_cancel_iff]
  have h32 : (3 : Nat) &&& 2 = 2 := by decide
  unfold field
  rw [Nat.and_assoc, h32]

/-- `Board::at` decided by the 2-bit field: X's full pattern first, then the
occupied bit shared with O, else blank. -/
lemma at_spec (b : Board) (i : Nat) :
    b.at' i = if field b i = 3 then 'X' else if field b i &&& 2 = 2 then 'O' else ' ' := by
  show (if b.spaces &&& (3 <<< (i * 2)) == 3 <<< (i * 2) then 'X'
    else if b.spaces &&& (2 <<< (i * 2)) == 2 <<< (i * 2) then 'O' else ' ') = _
  by_cases h1 : field b i = 3
  · rw [if_pos (beq_iff_eq.mpr ((x_cond_iff b i).mpr h1)), if_pos h1]
  · rw [if_neg (fun hx => h1 ((x_cond_iff b i).mp (beq_iff_eq.mp hx))), if_neg h1]
    by_cases h2 : field b i &&& 2 = 2
    · rw [if_pos (beq_iff_eq.mpr ((o_cond_iff b i).mpr h2)), if_pos h2]
    · rw [if_neg (fun ho => h2 ((o_cond_iff b i).mp (beq_iff_eq.mp ho))), if_neg h2]

lemma available_iff_field (b : Board) (i : Nat) :
    b.available i = true ↔ field b i = 0 := by
  unfold Board.available
  rw [beq_iff_eq, and_mask_shift, shiftLeft_eq_zero_iff]
  exact Iff.rfl

lemma and_eq_right_iff (s M : Nat) :
    s &&& M = M ↔ ∀ j, M.testBit j = true → s.testBit j = true := by
  constructor
  · intro h j hj
    have := congrArg (fun x => x.testBit j) h
    simpa [Nat.testBit_and, hj] using this
  · intro h
    apply Nat.eq_of_testBit_eq
    intro j
    rw [Nat.testBit_and]
    cases hM : M.testBit j
    · simp
    · simp [h j hM]

lemma occupied_bit_iff (b : Board) (i : Nat) :
    field b i &&& 2 = 2 ↔ b.spaces.testBit (i * 2 + 1) = true := by
  have hassoc : field b i &&& 2 = (b.spaces >>> (i * 2)) &&& 2 := by
    have h32 : (3 : Nat) &&& 2 = 2 := by decide
    unfold field
    rw [Nat.and_assoc, h32]
  rw [hassoc]
  have hx := Nat.and_two_pow (b.spaces >>> (i * 2)) 1
  rw [pow_one] at hx
  rw [hx, Nat.testBit_shiftRight]
  cases htb : b.spaces.testBit (i * 2 + 1) <;> simp [htb]

/-- `Board::is_draw` holds iff every cell's occupied bit is set. -/
lemma is_draw_iff (b : Board) :
    b.is_draw = true ↔ ∀ i < 9, field b i &&& 2 = 2 := by
  unfold Board.is_draw
  rw [beq_iff_eq, and_eq_right_iff]
  constructor
  · intro h i hi
    rw [occupied_bit_iff]
    apply h
    interval_cases i <;> decide
  · intro h j hj
    have hocc : ∀ i, i < 9 → b.spaces.testBit (i * 2 + 1) = true :=
      fun i hi => (occupied_bit_iff b i).mp (h i hi)
    by_cases hlt : j < 18
    · interval_cases j <;>
        first
          | exact absurd hj (by decide)
          | exact hocc 0 (by norm_num)
          | exact hocc 1 (by norm_num)
          | exact hocc 2 (by norm_num)
          | exact hocc 3 (by norm_num)
          | exact hocc 4 (by norm_num)
          | exact hocc 5 (by norm_num)
          | exact hocc 6 (by norm_num)
          | exact hocc 7 (by norm_num)
          | exact hocc 8 (by norm_num)
    · have hM : (0b101010101010101010 : Nat) < 2 ^ j := by
        calc (0b101010101010101010 : Nat) < 2 ^ 18 := by norm_num
          _ ≤ 2 ^ j := Nat.pow_le_pow_right (by norm_num) (by omega)
      rw [Nat.testBit_lt_two_pow hM] at hj
      exact absurd hj (by simp)

lemma or_field (s x k : Nat) :
    ((s ||| x) >>> k) &&& 3 = ((s >>> k) &&& 3) ||| ((x >>> k) &&& 3) := by
  apply Nat.eq_of_testBit_eq
  intro j
  simp only [Nat.testBit_and, Nat.testBit_or, Nat.testBit_shiftRight]
  cases s.testBit (k + j) <;> cases x.testBit (k + j) <;>
    cases (3 : Nat).testBit j <;> rfl

lemma mask_shift_field_self (m k : Nat) (hm : m ≤ 3) :
    ((m <<< k) >>> k) &&& 3 = m := by
  have h : (m <<< k) >>> k = m := by
    rw [Nat.shiftLeft_eq, Nat.shiftRight_eq_div_pow]
    exact Nat.mul_div_cancel _ (Nat.two_pow_pos k)
  rw [h]
  interval_cases m <;> rfl

lemma mask_shift_field_other (m i j : Nat) (hm : m ≤ 3) (hij : i ≠ j) :
    ((m <<< (i * 2)) >>> (j * 2)) &&& 3 = 0 := by
  apply Nat.eq_of_testBit_eq
  intro t
  simp only [Nat.testBit_and, Nat.testBit_shiftLeft, Nat.testBit_shiftRight,
    Nat.zero_testBit]
  by_cases ht : t < 2
  · by_cases hle : i * 2 ≤ j * 2 + t
    · have he : 2 ≤ j * 2 + t - i * 2 := by omega
      have hmt : m.testBit (j * 2 + t - i * 2) = false :=
        Nat.testBit_lt_two_pow (lt_of_le_of_lt hm
          (lt_of_lt_of_le (by norm_num)
            (Nat.pow_le_pow_right (by norm_num) he)))
      simp [hmt]
    · simp [hle]
  · have h3 : (3 : Nat).testBit t = false := by
      apply Nat.testBit_lt_two_pow
      calc (3 : Nat) < 2 ^ 2 := by norm_num
        _ ≤ 2 ^ t := Nat.pow_le_pow_right (by norm_num) (by omega)
    simp [h3]

lemma player_mask_le_three (p : PlayerMarker) : p.player_mask ≤ 3 := by
  cases p <;> decide

/-- `set` writes exactly the player's full 2-bit code into an available cell. -/
lemma field_set_self (b : Board) (i : Nat) (p : PlayerMarker)
    (hav : b.available i = true) : field (b.set i p) i = p.player_mask := by
  have h0 : field b i = 0 := (available_iff_field b i).mp hav
  show ((b.spaces ||| (p.player_mask <<< (i * 2))) >>> (i * 2)) &&& 3 = _
  rw [or_field]
  have : (b.spaces >>> (i * 2)) &&& 3 = 0 := h0
  rw [this, mask_shift_field_self _ _ (player_mask_le_three p), Nat.zero_or]

/-- `set` leaves every other cell's 2-bit field unchanged. -/
lemma field_set_other (b : Board) (i : Nat) (p : PlayerMarker) (j : Nat)
    (hij : j ≠ i) : field (b.set i p) j = field b j := by
  show ((b.spaces ||| (p.player_mask <<< (i * 2))) >>> (j * 2)) &&& 3 = _
  rw [or_field, mask_shift_field_other _ _ _ (player_mask_le_three p)
    (fun h => hij h.symm), Nat.or_zero]
  rfl

/-- Boards reachable by the referee: the fresh board, then placements of a
player's marker on a cell that was available. -/
inductive Reachable : Board → Prop where
  | new : Reachable Board.new
  | step (b : Board) (i : Nat) (p : PlayerMarker) (hb : Reachable b)
      (hi : i < 9) (hav : b.available i = true) : Reachable (b.set i p)

instance (b : Board) : Decidable (WF b) := by
  unfold WF
  infer_instance

/-- The exact rational value of the `f32::MIN` literal that seeds
`best_value` in the RL branch of `Agent::get_move`. -/
def f32Min : ℚ := -(2 ^ 128 - 2 ^ 104)

/-- `eval_board` in the RL branch: the successor encoding obtained by ORing
the mover's 2-bit code into cell `i`. -/
def eval_board (b : Board) (player : PlayerMarker) (i : Nat) : Nat :=
  b.spaces ||| (player.player_mask <<< (i * 2))

/-- `q_table.get(&eval_board).unwrap_or(&0.0)`. -/
def succVal (q : QTable) (b : Board) (player : PlayerMarker) (i : Nat) : ℚ :=
  (q (eval_board b player i)).getD 0

/-- One iteration of the RL scan `for i in 0..9`: on an available cell,
replace the running best when the successor value is strictly greater. -/
def scanStep (q : QTable) (b : Board) (player : PlayerMarker)
    (acc : Option Nat × ℚ) (i : Nat) : Option Nat × ℚ :=
  if b.available i then
    if acc.2 < succVal q b player i then (some i, succVal q b player i) else acc
  else acc

/-- The full scan: `best_move = None`, `best_value = f32::MIN`, then the
loop over indices `0..9`. -/
def bestScan (q : QTable) (b : Board) (player : PlayerMarker) : Option Nat × ℚ :=
  (List.range 9).foldl (scanStep q b player) (none, f32Min)

/-- `(0..9).filter(|&i| board.available(i)).collect()`. -/
def availList (b : Board) : List Nat :=
  (List.range 9).filter fun i => b.available i

/-- `available.get(next_u32() as usize % available.len())`: `none` models
the panic on an empty list (`% 0` aborts before the `expect`). -/
def pickRandom (l : List Nat) (r : Nat) : Option Nat := l.get? (r % l.length)

/-- The `Agent::Random` arm of `get_move`; `r` is the random draw. -/
def rand_get_move (b : Board) (r : Nat) : Option Nat :=
  pickRandom (availList b) r

/-- The `Agent::RL` arm of `get_move`. `explore` stands for
`next_u32() % 100 == 1` and `r` for the uniform draw; the returned triple is
(returned index or panic, new `q_table`, new `prev_board`). The `values`
vector and `visualize_values` call only print and carry no state. -/
def rl_get_move (q : QTable) (prev : Nat) (b : Board) (player : PlayerMarker)
    (explore : Bool) (r : Nat) : Option Nat × QTable × Nat :=
  let scan := bestScan q b player
  if explore then (pickRandom (availList b) r, q, prev)
  else
    let q' := update_q q prev scan.2
    match scan.1 with
    | none => (none, q', prev)
    | some m => (some m, q', eval_board b player m)

/-- Invariants of the greedy scan: the running best only grows, it dominates
every available successor value seen so far, and when it moved off the
initial accumulator it names the first available index attaining the
maximum. -/
lemma scan_fold_spec (q : QTable) (b : Board) (player : PlayerMarker) :
    ∀ (n : Nat) (acc : Option Nat × ℚ),
      acc.2 ≤ ((List.range n).foldl (scanStep q b player) acc).2 ∧
      (∀ i, i < n → b.available i = true →
        succVal q b player i ≤ ((List.range n).foldl (scanStep q b player) acc).2) ∧
      ((List.range n).foldl (scanStep q b player) acc = acc ∨
        ∃ m, m < n ∧ b.available m = true ∧
          ((List.range n).foldl (scanStep q b player) acc).1 = some m ∧
          ((List.range n).foldl (scanStep q b player) acc).2 = succVal q b player m ∧
          acc.2 < succVal q b player m ∧
          ∀ j, j < m → b.available j = true →
            succVal q b player j < succVal q b player m) := by
  intro n
  induction n with
  | zero =>
      intro acc
      refine ⟨le_refl _, ?_, Or.inl rfl⟩
      intro i hi
      exact absurd hi (by omega)
  | succ n ih =>
      intro acc
      obtain ⟨h1, h2, h3⟩ := ih acc
      have hstep : (List.range (n + 1)).foldl (scanStep q b player) acc =
          scanStep q b player ((List.range n).foldl (scanStep q b player) acc) n := by
        rw [List.range_succ, List.foldl_append, List.foldl_cons, List.foldl_nil]
      rw [hstep]
      by_cases hav : b.available n = true
      · by_cases hlt :
            ((List.range n).foldl (scanStep q b player) acc).2 < succVal q b player n
        · have hsn : scanStep q b player
              ((List.range n).foldl (scanStep q b player) acc) n =
              (some n, succVal q b player n) := by
            simp [scanStep, hav, hlt]
          rw [hsn]
          refine ⟨le_of_lt (lt_of_le_of_lt h1 hlt), ?_,
            Or.inr ⟨n, by omega, hav, rfl, rfl, lt_of_le_of_lt h1 hlt, ?_⟩⟩
          · intro i hi hiav
            rcases Nat.lt_succ_iff_lt_or_eq.mp hi with h | h
            · exact le_of_lt (lt_of_le_of_lt (h2 i h hiav) hlt)
            · subst h
              exact le_refl _
          · intro j hj hjav
            exact lt_of_le_of_lt (h2 j hj hjav) hlt
        · have hsn : scanStep q b player
              ((List.range n).foldl (scanStep q b player) acc) n =
              (List.range n).foldl (scanStep q b player) acc := by
            simp [scanStep, hav, hlt]
          rw [hsn]
          refine ⟨h1, ?_, ?_⟩
          · intro i hi hiav
            rcases Nat.lt_succ_iff_lt_or_eq.mp hi with h | h
            · exact h2 i h hiav
            · subst h
              exact not_lt.mp hlt
          · rcases h3 with h | ⟨m, hm, hmav, hm1, hm2, hmgt, hmmax⟩
            · exact Or.inl h
            · exact Or.inr ⟨m, by omega, hmav, hm1, hm2, hmgt, hmmax⟩
      · have hsn : scanStep q b player
            ((List.range n).foldl (scanStep q b player) acc) n =
            (List.range n).foldl (scanStep q b player) acc := by
          simp [scanStep, hav]
        rw [hsn]
        refine ⟨h1, ?_, ?_⟩
        · intro i hi hiav
          rcases Nat.lt_succ_iff_lt_or_eq.mp hi with h | h
          · exact h2 i h hiav
          · subst h
            exact absurd hiav hav
        · rcases h3 with h | ⟨m, hm, hmav, hm1, hm2, hmgt, hmmax⟩
          · exact Or.inl h
          · exact Or.inr ⟨m, by omega, hmav, hm1, hm2, hmgt, hmmax⟩

/-- The exploitation branch: when some available successor value exceeds the
`f32::MIN` sentinel, the branch returns the first available index whose
successor value is maximal, TD-updates `prev` with that best value, and
records the chosen successor encoding. -/
lemma exploit_spec (q : QTable) (prev : Nat) (b : Board) (player : PlayerMarker)
    (r : Nat)
    (h : ∃ i, i < 9 ∧ b.available i = true ∧ f32Min < succVal q b player i) :
    ∃ m, m < 9 ∧ b.available m = true ∧
      (∀ j, j < 9 → b.available j = true →
        succVal q b player j ≤ succVal q b player m) ∧
      (∀ j, j < m → b.available j = true →
        succVal q b player j < succVal q b player m) ∧
      rl_get_move q prev b player false r =
        (some m, update_q q prev (succVal q b player m), eval_board b player m) := by
  obtain ⟨i, hi9, hiav, hival⟩ := h
  obtain ⟨h1, h2, h3⟩ := scan_fold_spec q b player 9 (none, f32Min)
  rcases h3 with heq | ⟨m, hm9, hmav, hm1, hm2, hmgt, hmmax⟩
  · exfalso
    have := h2 i hi9 hiav
    rw [heq] at this
    exact absurd (lt_of_lt_of_le hival this) (lt_irrefl _)
  · have hscan : bestScan q b player = (some m, succVal q b player m) :=
      Prod.ext_iff.mpr ⟨hm1, hm2⟩
    refine ⟨m, hm9, hmav, ?_, hmmax, ?_⟩
    · intro j hj hjav
      have := h2 j hj hjav
      rw [hm2] at this
      exact this
    · simp [rl_get_move, hscan]

/-- `availList` collects exactly the available indices below 9. -/
lemma mem_availList (b : Board) (m : Nat) :
    m ∈ availList b ↔ m < 9 ∧ b.available m = true := by
  unfold availList
  rw [List.mem_filter, List.mem_range]

lemma pickRandom_mem (l : List Nat) (r : Nat) (hl : l ≠ []) :
    ∃ m, pickRandom l r = some m ∧ m ∈ l := by
  have hlen : 0 < l.length := List.length_pos.mpr hl
  have hmod : r % l.length < l.length := Nat.mod_lt _ hlen
  exact ⟨l.get ⟨r % l.length, hmod⟩, List.get?_eq_get hmod,
    List.get_mem l _ hmod⟩

lemma pickRandom_availList (b : Board) (r : Nat)
    (hav : ∃ i, i < 9 ∧ b.available i = true) :
    ∃ m, pickRandom (availList b) r = some m ∧ m < 9 ∧ b.available m = true := by
  obtain ⟨i, hi, hiav⟩ := hav
  have hne : availList b ≠ [] :=
    List.ne_nil_of_mem ((mem_availList b i).mpr ⟨hi, hiav⟩)
  obtain ⟨m, hm, hmem⟩ := pickRandom_mem (availList b) r hne
  obtain ⟨hm9, hmav⟩ := (mem_availList b m).mp hmem
  exact ⟨m, hm, hm9, hmav⟩

end TicTacToe

namespace TicTacToe

/-- C3: in the exploitation branch of the RL `get_move` (given that some
available successor value beats the `f32::MIN` sentinel, which every real
table satisfies), the returned index is the smallest available index whose
successor value is maximal (missing keys read as `0.0`, ties broken by the
ascending scan), the TD update with target `best_value` is applied to
`previousState`, and `previousState` becomes the chosen successor
encoding. -/
theorem C3_exploit_greedy (q : QTable) (prev : Nat) (b : Board)
    (player : PlayerMarker) (r : Nat)
    (h : ∃ i, i < 9 ∧ b.available i = true ∧ f32Min < succVal q b player i) :
    ∃ m, m < 9 ∧ b.available m = true ∧
      (∀ j, j < 9 → b.available j = true →
        succVal q b player j ≤ succVal q b player m) ∧
      (∀ j, j < m → b.available j = true →
        succVal q b player j < succVal q b player m) ∧
      rl_get_move q prev b player false r =
        (some m, update_q q prev (succVal q b player m), eval_board b player m) :=
  exploit_spec q prev b player r h

/-- Closed instance of C3: fresh table, empty board, X to move. -/
theorem C3_exploit_greedy_witness :
    (∃ i, i < 9 ∧ Board.new.available i = true ∧
      f32Min < succVal emptyTable Board.new .X i) ∧
    ∃ m, m < 9 ∧ Board.new.available m = true ∧
      (∀ j, j < 9 → Board.new.available j = true →
        succVal emptyTable Board.new .X j ≤ succVal emptyTable Board.new .X m) ∧
      (∀ j, j < m → Board.new.available j = true →
        succVal emptyTable Board.new .X j < succVal emptyTable Board.new .X m) ∧
      rl_get_move emptyTable 0 Board.new .X false 0 =
        (some m, update_q emptyTable 0 (succVal emptyTable Board.new .X m),
          eval_board Board.new .X m) := by
  have h : ∃ i, i < 9 ∧ Board.new.available i = true ∧
      f32Min < succVal emptyTable Board.new .X i :=
    ⟨0, by decide, by decide, by norm_num [succVal, emptyTable, f32Min]⟩
  exact ⟨h, C3_exploit_greedy emptyTable 0 Board.new .X 0 h⟩

/-- C9 counterexample: a value table mapping every key to exactly `f32::MIN`
makes the exploitation branch return the `None`/panic case on the empty
board, where all nine cells are available — so the aborting branch is
reachable with available cells, contradicting the claim as stated. -/
theorem C9_counterexample :
    Board.new.available 0 = true ∧
    (rl_get_move (fun _ => some f32Min) 0 Board.new .X false 0).1 = none := by
  refine ⟨by decide, ?_⟩
  have hsucc : ∀ i, succVal (fun _ => some f32Min) Board.new .X i = f32Min :=
    fun i => rfl
  obtain ⟨h1, h2, h3⟩ :=
    scan_fold_spec (fun _ => some f32Min) Board.new .X 9 (none, f32Min)
  rcases h3 with heq | ⟨m, _, _, _, _, hmgt, _⟩
  · have hscan : bestScan (fun _ => some f32Min) Board.new .X = (none, f32Min) := heq
    simp [rl_get_move, hscan]
  · rw [hsucc m] at hmgt
    exact absurd hmgt (lt_irrefl _)

/-- C9 (amended): whenever at least one cell is available, the Random agent
returns an available index, and the Learning agent returns an available
index for every `previousState` and every value table whose stored values
all exceed `f32::MIN` (as do all tables the program ever builds); with
values ≤ `f32::MIN` the `No available moves` abort is reachable even when
cells are available. -/
theorem C9_returns_available (b : Board) (q : QTable) (prev : Nat)
    (player : PlayerMarker) (explore : Bool) (r : Nat)
    (hav : ∃ i, i < 9 ∧ b.available i = true)
    (hq : ∀ k v, q k = some v → f32Min < v) :
    (∃ m, rand_get_move b r = some m ∧ m < 9 ∧ b.available m = true) ∧
    (∃ m, (rl_get_move q prev b player explore r).1 = some m ∧ m < 9 ∧
      b.available m = true) := by
  refine ⟨pickRandom_availList b r hav, ?_⟩
  cases explore
  · have h : ∃ i, i < 9 ∧ b.available i = true ∧
        f32Min < succVal q b player i := by
      obtain ⟨i, hi, hiav⟩ := hav
      refine ⟨i, hi, hiav, ?_⟩
      unfold succVal
      cases hqe : q (eval_board b player i)
      · show f32Min < 0
        norm_num [f32Min]
      · exact hq _ _ hqe
    obtain ⟨m, hm9, hmav, _, _, heq⟩ := exploit_spec q prev b player r h
    exact ⟨m, by rw [heq], hm9, hmav⟩
  · obtain ⟨m, hm, hm9, hmav⟩ := pickRandom_availList b r hav
    refine ⟨m, ?_, hm9, hmav⟩
    show (pickRandom (availList b) r, q, prev).1 = some m
    exact hm

/-- Closed instance of the amended C9: empty board, fresh table. -/
theorem C9_returns_available_witness :
    (∃ i, i < 9 ∧ Board.new.available i = true) ∧
    (∃ m, rand_get_move Board.new 0 = some m ∧ m < 9 ∧
      Board.new.available m = true) ∧
    (∃ m, (rl_get_move emptyTable 0 Board.new .X false 0).1 = some m ∧ m < 9 ∧
      Board.new.available m = true) := by
  have hav : ∃ i, i < 9 ∧ Board.new.available i = true := ⟨0, by decide, by decide⟩
  have hq : ∀ k v, emptyTable k = some v → f32Min < v := by
    intro k v h
    exact absurd h (by simp [emptyTable])
  obtain ⟨hrand, hrl⟩ :=
    C9_returns_available Board.new emptyTable 0 .X false 0 hav hq
  exact ⟨hav, hrand, hrl⟩

/-- C10: in the exploration branch the RL agent returns an index drawn from
the available list while the value table and `previousState` are left
completely unchanged. -/
theorem C10_explore_frame (q : QTable) (prev : Nat) (b : Board)
    (player : PlayerMarker) (r : Nat)
    (hav : ∃ i, i < 9 ∧ b.available i = true) :
    (rl_get_move q prev b player true r).2.1 = q ∧
    (rl_get_move q prev b player true r).2.2 = prev ∧
    ∃ m, (rl_get_move q prev b player true r).1 = some m ∧ m < 9 ∧
      b.available m = true := by
  refine ⟨rfl, rfl, ?_⟩
  obtain ⟨m, hm, hm9, hmav⟩ := pickRandom_availList b r hav
  refine ⟨m, ?_, hm9, hmav⟩
  show (pickRandom (availList b) r, q, prev).1 = some m
  exact hm

/-- Closed instance of C10 on the empty board. -/
theorem C10_explore_frame_witness :
    (∃ i, i < 9 ∧ Board.new.available i = true) ∧
    (rl_get_move emptyTable 5 Board.new .O true 7).2.1 = emptyTable ∧
    (rl_get_move emptyTable 5 Board.new .O true 7).2.2 = 5 ∧
    ∃ m, (rl_get_move emptyTable 5 Board.new .O true 7).1 = some m ∧ m < 9 ∧
      Board.new.available m = true := by
  have hav : ∃ i, i < 9 ∧ Board.new.available i = true := ⟨0, by decide, by decide⟩
  obtain ⟨h1, h2, h3⟩ := C10_explore_frame emptyTable 5 Board.new .O 7 hav
  exact ⟨hav, h1, h2, h3⟩

end TicTacToe

namespace TicTacToe

/-- `enum Result { XWin, OWin, Draw }` from the source (renamed, since
`Result` is taken in Lean). -/
inductive GameResult where
  | XWin
  | OWin
  | Draw
deriving DecidableEq

/-- Which terminal notification (`report_win` / `report_draw` /
`report_loss`) an agent receives. -/
inductive Outcome where
  | win
  | draw
  | loss
deriving DecidableEq

/-- The marker flip at the bottom of the `play_game` loop. -/
def other : PlayerMarker → PlayerMarker
  | .X => .O
  | .O => .X

/-- The mover's result value from the win branch of `play_game`. -/
def resultOf : PlayerMarker → GameResult
  | .X => .XWin
  | .O => .OWin

/-- The referee's terminal tests after a move, in source order: first the
mover's win, then fullness; `none` means the game continues. The list
records the `report_*` calls delivered at the terminal: the current agent
first, then the other agent. -/
def terminalCheck (b : Board) (p : PlayerMarker) :
    Option (GameResult × List (PlayerMarker × Outcome)) :=
  if b.check_winner p then
    some (resultOf p, [(p, .win), (other p, .loss)])
  else if b.is_draw then
    some (.Draw, [(p, .draw), (other p, .draw)])
  else none

/-- The loop of `play_game`, fuel-indexed. The two stateful agents are
abstracted into the move oracle `moveFn`: within a single game the board
strictly gains occupied cells each turn and never repeats, and the agent
holding a marker is fixed, so any agent behaviour along one run is a
function of the current board and marker. `none` means the fuel ran out —
C6 proves this never happens from the initial 9 units. -/
def play_game_aux (moveFn : Board → PlayerMarker → Nat) :
    Nat → Board → PlayerMarker →
      Option (GameResult × List (PlayerMarker × Outcome))
  | 0, _, _ => none
  | fuel + 1, b, p =>
    match terminalCheck (b.set (moveFn b p) p) p with
    | some r => some r
    | none => play_game_aux moveFn fuel (b.set (moveFn b p) p) (other p)

/-- `play_game`: fresh board, X moves first; fuel 9 = number of cells. -/
def play_game (moveFn : Board → PlayerMarker → Nat) :
    Option (GameResult × List (PlayerMarker × Outcome)) :=
  play_game_aux moveFn 9 Board.new .X

/-- The number of available cells, the loop's termination measure. -/
def navail (b : Board) : Nat := (List.range 9).countP fun i => b.available i

lemma play_game_aux_succ (moveFn : Board → PlayerMarker → Nat) (fuel : Nat)
    (b : Board) (p : PlayerMarker) :
    play_game_aux moveFn (fuel + 1) b p =
      match terminalCheck (b.set (moveFn b p) p) p with
      | some r => some r
      | none => play_game_aux moveFn fuel (b.set (moveFn b p) p) (other p) := rfl

lemma countP_range_update (f g : Nat → Bool) (i n : Nat) (hi : i < n)
    (hfi : f i = true) (hgi : g i = false) (hfg : ∀ j, j ≠ i → g j = f j) :
    (List.range n).countP g + 1 = (List.range n).countP f := by
  induction n with
  | zero => exact absurd hi (by omega)
  | succ n ih =>
      rw [List.range_succ, List.countP_append, List.countP_append]
      by_cases hni : i = n
      · have h1 : [n].countP f = 1 := by
          rw [List.countP_singleton, ← hni, hfi]
          simp
        have h2 : [n].countP g = 0 := by
          rw [List.countP_singleton, ← hni, hgi]
          simp
        have hcong : (List.range n).countP g = (List.range n).countP f := by
          apply List.countP_congr
          intro j hj
          rw [hfg j (by have := List.mem_range.mp hj; omega)]
        omega
      · have hlt : i < n := by omega
        have hrec := ih hlt
        have hsing : [n].countP g = [n].countP f := by
          rw [List.countP_singleton, List.countP_singleton,
            hfg n (fun h => hni h.symm)]
        omega

lemma available_eq_of_field_eq (b1 b2 : Board) (j : Nat)
    (h : field b1 j = field b2 j) : b1.available j = b2.available j := by
  cases h1 : b1.available j <;> cases h2 : b2.available j <;> try rfl
  · have := (available_iff_field b2 j).mp h2
    rw [← h] at this
    rw [(available_iff_field b1 j).mpr this] at h1
    exact absurd h1 (by simp)
  · have := (available_iff_field b1 j).mp h1
    rw [h] at this
    rw [(available_iff_field b2 j).mpr this] at h2
    exact absurd h2 (by simp)

lemma set_not_available (b : Board) (i : Nat) (p : PlayerMarker)
    (hav : b.available i = true) : (b.set i p).available i = false := by
  cases hx : (b.set i p).available i
  · rfl
  · exfalso
    have h0 := (available_iff_field _ i).mp hx
    rw [field_set_self b i p hav] at h0
    cases p <;> simp [PlayerMarker.player_mask] at h0

/-- Placing on an available cell decreases the available-cell count by 1. -/
lemma navail_set (b : Board) (i : Nat) (p : PlayerMarker) (hi : i < 9)
    (hav : b.available i = true) : navail (b.set i p) + 1 = navail b := by
  apply countP_range_update (fun j => b.available j)
    (fun j => (b.set i p).available j) i 9 hi hav (set_not_available b i p hav)
  intro j hj
  exact available_eq_of_field_eq _ _ j (field_set_other b i p j hj)

lemma wf_set (b : Board) (i : Nat) (p : PlayerMarker) (hwf : WF b)
    (hav : b.available i = true) : WF (b.set i p) := by
  intro j hj
  by_cases hji : j = i
  · subst hji
    rw [field_set_self b j p hav]
    cases p <;> simp [PlayerMarker.player_mask]
  · rw [field_set_other b i p j hji]
    exact hwf j hj

/-- A non-full well-formed board has an available cell. -/
lemma not_draw_has_available (b : Board) (hwf : WF b)
    (hd : b.is_draw = false) : ∃ i, i < 9 ∧ b.available i = true := by
  by_contra hno
  push_neg at hno
  have : b.is_draw = true := by
    rw [is_draw_iff]
    intro i hi
    rcases hwf i hi with h0 | h2 | h3
    · exfalso
      have := hno i hi
      rw [(available_iff_field b i).mpr h0] at this
      exact this rfl
    · rw [h2]
      decide
    · rw [h3]
      decide
  rw [this] at hd
  exact absurd hd (by simp)

lemma terminalCheck_none (b : Board) (p : PlayerMarker)
    (h : terminalCheck b p = none) :
    b.check_winner p = false ∧ b.is_draw = false := by
  unfold terminalCheck at h
  by_cases hw : b.check_winner p = true
  · rw [if_pos hw] at h
    exact absurd h (by simp)
  · by_cases hd : b.is_draw = true
    · rw [if_neg hw, if_pos hd] at h
      exact absurd h (by simp)
    · exact ⟨Bool.eq_false_iff.mpr hw, Bool.eq_false_iff.mpr hd⟩

lemma terminalCheck_shape (b : Board) (p : PlayerMarker)
    (r : GameResult × List (PlayerMarker × Outcome))
    (h : terminalCheck b p = some r) :
    ∃ res o1 o2, r = (res, [(p, o1), (other p, o2)]) := by
  unfold terminalCheck at h
  by_cases hw : b.check_winner p = true
  · rw [if_pos hw] at h
    exact ⟨resultOf p, .win, .loss, (Option.some_inj.mp h).symm⟩
  · rw [if_neg hw] at h
    by_cases hd : b.is_draw = true
    · rw [if_pos hd] at h
      exact ⟨.Draw, .draw, .draw, (Option.some_inj.mp h).symm⟩
    · rw [if_neg hd] at h
      exact absurd h (by simp)

/-- Referee loop invariant: from a well-formed board with an available cell
and enough fuel, the loop reaches a terminal and reports it with exactly one
pair of notifications, one per agent. -/
lemma play_game_aux_spec (moveFn : Board → PlayerMarker → Nat)
    (hmove : ∀ b p, (∃ i, i < 9 ∧ b.available i = true) →
      moveFn b p < 9 ∧ b.available (moveFn b p) = true) :
    ∀ fuel b p, WF b → (∃ i, i < 9 ∧ b.available i = true) →
      navail b ≤ fuel →
      ∃ res mover o1 o2, play_game_aux moveFn fuel b p =
        some (res, [(mover, o1), (other mover, o2)]) := by
  intro fuel
  induction fuel with
  | zero =>
      intro b p _ hav hle
      exfalso
      obtain ⟨i, hi, hiav⟩ := hav
      have hpos : 0 < navail b :=
        List.countP_pos_iff.mpr ⟨i, List.mem_range.mpr hi, hiav⟩
      omega
  | succ fuel ih =>
      intro b p hwf hav hle
      obtain ⟨hm9, hmav⟩ := hmove b p hav
      have hwf' : WF (b.set (moveFn b p) p) := wf_set b _ p hwf hmav
      rw [play_game_aux_succ]
      cases hterm : terminalCheck (b.set (moveFn b p) p) p with
      | some r =>
          obtain ⟨res, o1, o2, hr⟩ := terminalCheck_shape _ p r hterm
          exact ⟨res, p, o1, o2, by rw [hr]⟩
      | none =>
          obtain ⟨_, hd⟩ := terminalCheck_none _ p hterm
          have hav' := not_draw_has_available _ hwf' hd
          have hcount := navail_set b (moveFn b p) p hm9 hmav
          exact ih (b.set (moveFn b p) p) (other p) hwf' hav' (by omega)

end TicTacToe

namespace TicTacToe

/-- C6: provided every agent call returns an index available on the board at
the moment of the call, `play_game` reaches a terminal within the 9 units of
fuel (at most 9 moves), returns exactly one `GameResult`, and delivers
exactly one pair of terminal notifications, one to each of the two
agents. -/
theorem C6_play_game_terminates (moveFn : Board → PlayerMarker → Nat)
    (hmove : ∀ b p, (∃ i, i < 9 ∧ b.available i = true) →
      moveFn b p < 9 ∧ b.available (moveFn b p) = true) :
    ∃ res mover o1 o2, play_game moveFn =
      some (res, [(mover, o1), (other mover, o2)]) ∧ other mover ≠ mover := by
  obtain ⟨res, mover, o1, o2, h⟩ := play_game_aux_spec moveFn hmove 9 Board.new
    .X (by decide) ⟨0, by decide, by decide⟩ (by decide)
  exact ⟨res, mover, o1, o2, h, by cases mover <;> decide⟩

/-- The deterministic always-play-the-first-available-cell agent, used as a
concrete oracle satisfying C6's hypothesis. -/
def firstAvailMove (b : Board) (_ : PlayerMarker) : Nat :=
  match availList b with
  | [] => 0
  | i :: _ => i

lemma firstAvailMove_spec : ∀ (b : Board) (p : PlayerMarker),
    (∃ i, i < 9 ∧ b.available i = true) →
    firstAvailMove b p < 9 ∧ b.available (firstAvailMove b p) = true := by
  intro b p hav
  obtain ⟨i, hi, hiav⟩ := hav
  have hne : availList b ≠ [] :=
    List.ne_nil_of_mem ((mem_availList b i).mpr ⟨hi, hiav⟩)
  cases hl : availList b with
  | nil => exact absurd hl hne
  | cons a t =>
      have ha : a ∈ availList b := by
        rw [hl]
        exact List.mem_cons_self a t
      obtain ⟨h9, hav'⟩ := (mem_availList b a).mp ha
      have heq : firstAvailMove b p = a := by
        unfold firstAvailMove
        rw [hl]
      rw [heq]
      exact ⟨h9, hav'⟩

/-- Closed instance of C6 with the first-available-cell oracle. -/
theorem C6_play_game_terminates_witness :
    ∃ res mover o1 o2, play_game firstAvailMove =
      some (res, [(mover, o1), (other mover, o2)]) ∧ other mover ≠ mover :=
  C6_play_game_terminates firstAvailMove firstAvailMove_spec

/-- C7: the referee's terminal test checks the mover's win before fullness:
whenever the mover has a winning line the step reports the mover's win with
the win/loss notification pair regardless of fullness, and a Draw is
reported exactly when the mover has not won and the board is full. -/
theorem C7_win_before_draw (b : Board) (p : PlayerMarker) :
    (b.check_winner p = true →
      terminalCheck b p = some (resultOf p, [(p, .win), (other p, .loss)])) ∧
    ((∃ log, terminalCheck b p = some (.Draw, log)) ↔
      b.check_winner p = false ∧ b.is_draw = true) := by
  constructor
  · intro h
    unfold terminalCheck
    rw [if_pos h]
  · constructor
    · rintro ⟨log, hl⟩
      unfold terminalCheck at hl
      by_cases hw : b.check_winner p = true
      · rw [if_pos hw] at hl
        cases p <;> simp [resultOf] at hl
      · rw [if_neg hw] at hl
        by_cases hd : b.is_draw = true
        · exact ⟨Bool.eq_false_iff.mpr hw, hd⟩
        · rw [if_neg hd] at hl
          exact absurd hl (by simp)
    · rintro ⟨hw, hd⟩
      refine ⟨[(p, .draw), (other p, .draw)], ?_⟩
      unfold terminalCheck
      rw [if_neg (by simp [hw]), if_pos hd]

/-- Closed instance of C7: a full board on which X has just completed the
top row — the win is reported even though the fullness test would also
fire. -/
theorem C7_win_before_draw_witness :
    (Board.mk 192191).check_winner .X = true ∧
    (Board.mk 192191).is_draw = true ∧
    terminalCheck (Board.mk 192191) .X =
      some (resultOf .X, [(.X, .win), (.O, .loss)]) :=
  ⟨by decide, by decide, (C7_win_before_draw (Board.mk 192191) .X).1 (by decide)⟩

end TicTacToe

namespace TicTacToe

/-- C4: on a board whose 2-bit fields all lie in `{00, 10, 11}`, `at`
returns `'X'` iff the field is `0b11`, `'O'` iff it is `0b10`, and blank iff
it is `0b00`; moreover on an X cell O's subset pattern test also passes, so
the source's X-before-O test order is load-bearing. -/
theorem C4_at_reads_fields (b : Board) (i : Nat) (hi : i < 9) (hwf : WF b) :
    ((b.at' i = 'X' ↔ field b i = 3) ∧
     (b.at' i = 'O' ↔ field b i = 2) ∧
     (b.at' i = ' ' ↔ field b i = 0)) ∧
    (field b i = 3 →
      b.spaces &&& (PlayerMarker.player_mask .O <<< (i * 2)) =
        PlayerMarker.player_mask .O <<< (i * 2)) := by
  constructor
  · refine ⟨?_, ?_, ?_⟩ <;> rw [at_spec] <;>
      rcases hwf i hi with h | h | h <;> rw [h] <;> decide
  · intro h3
    show b.spaces &&& (2 <<< (i * 2)) = 2 <<< (i * 2)
    exact (o_cond_iff b i).mpr (by rw [h3]; decide)


/-- Closed instance of C4 at a board holding one X in cell 0. -/
theorem C4_at_reads_fields_witness :
    0 < 9 ∧ WF (Board.new.set 0 .X) ∧
      ((Board.new.set 0 .X).at' 0 = 'X' ↔ field (Board.new.set 0 .X) 0 = 3) := by
  refine ⟨by decide, by decide, ?_⟩
  exact (C4_at_reads_fields (Board.new.set 0 .X) 0 (by decide) (by decide)).1.1

/-- C5: every board reachable from the empty board by placing markers on
available cells satisfies the representation invariant: each cell's 2-bit
field is one of `{00, 10, 11}`. -/
theorem C5_reachable_wf (b : Board) (hb : Reachable b) : WF b := by
  induction hb with
  | new =>
      intro i _
      left
      show ((0 : Nat) >>> (i * 2)) &&& 3 = 0
      simp [Nat.zero_shiftRight]
  | step b i p hb hi hav ih =>
      intro j hj
      by_cases hji : j = i
      · subst hji
        rw [field_set_self b j p hav]
        cases p <;> simp [PlayerMarker.player_mask]
      · rw [field_set_other b i p j hji]
        exact ih j hj

/-- Closed instance of C5 at the board with X placed on the centre cell. -/
theorem C5_reachable_wf_witness :
    Reachable (Board.new.set 4 .X) ∧ WF (Board.new.set 4 .X) := by
  have hr : Reachable (Board.new.set 4 .X) :=
    Reachable.step Board.new 4 .X Reachable.new (by decide) (by decide)
  exact ⟨hr, C5_reachable_wf _ hr⟩

/-- C8: on boards satisfying the representation invariant, the single-mask
fullness test `is_draw` is true exactly when no cell is `available`. -/
theorem C8_is_draw_iff_no_available (b : Board) (hwf : WF b) :
    b.is_draw = true ↔ ∀ i < 9, b.available i = false := by
  rw [is_draw_iff]
  constructor
  · intro h i hi
    cases hav : b.available i
    · rfl
    · exfalso
      have h0 := (available_iff_field b i).mp hav
      have h2 := h i hi
      rw [h0] at h2
      exact absurd h2 (by decide)
  · intro h i hi
    have hne : field b i ≠ 0 := by
      intro h0
      have : b.available i = true := (available_iff_field b i).mpr h0
      rw [h i hi] at this
      exact absurd this (by decide)
    rcases hwf i hi with h0 | h2 | h3
    · exact absurd h0 hne
    · rw [h2]
      decide
    · rw [h3]
      decide

/-- Closed instance of C8 at the empty board. -/
theorem C8_is_draw_iff_no_available_witness :
    WF Board.new ∧
      (Board.new.is_draw = true ↔ ∀ i < 9, Board.new.available i = false) :=
  ⟨by decide, C8_is_draw_iff_no_available Board.new (by decide)⟩

end TicTacToe

namespace TicTacToe

/-- C1: the TD value update (`update_q`) sets the entry for the given key to
`current + 0.1 * (target - current)` where `current` is the stored value or
`0.0` when absent; starting from an entry equal to `0.0` (or absent), one
terminal win update (target `+1.0`) stores exactly `0.1`, and a second win
update on the same key stores exactly `0.19`. -/
theorem C1_update_q_td_rule (t : QTable) (k : Nat) (r : ℚ) :
    update_q t k r k = some (t.getD0 k + (1 / 10) * (r - t.getD0 k)) ∧
    update_q emptyTable k 1 k = some (1 / 10) ∧
    update_q (emptyTable.insert k 0) k 1 k = some (1 / 10) ∧
    update_q (update_q emptyTable k 1) k 1 k = some (19 / 100) ∧
    update_q (update_q (emptyTable.insert k 0) k 1) k 1 k = some (19 / 100) := by
  refine ⟨update_q_at t k r, ?_, ?_, ?_, ?_⟩ <;>
    simp [update_q, QTable.insert, emptyTable, DEFAULT_VALUE] <;> norm_num

/-- C2: on each terminal notification the RL agent applies the TD update to
the key `previousState` (target `+1.0` on win, `-0.5` on draw, `-1.0` on
loss), leaves every other key unchanged, and resets `previousState` to `0`
in all three cases. -/
theorem C2_terminal_notifications (t : QTable) (p : Nat) (player : PlayerMarker)
    (b : Board) :
    (∃ q', Agent.report_win (.RL t p) player b = .RL q' 0 ∧
      q' p = some (t.getD0 p + (1 / 10) * (1 - t.getD0 p)) ∧
      ∀ k, k ≠ p → q' k = t k) ∧
    (∃ q', Agent.report_draw (.RL t p) b = .RL q' 0 ∧
      q' p = some (t.getD0 p + (1 / 10) * (-(1 / 2) - t.getD0 p)) ∧
      ∀ k, k ≠ p → q' k = t k) ∧
    (∃ q', Agent.report_loss (.RL t p) player b = .RL q' 0 ∧
      q' p = some (t.getD0 p + (1 / 10) * (-1 - t.getD0 p)) ∧
      ∀ k, k ≠ p → q' k = t k) := by
  refine ⟨⟨update_q t p 1, rfl, update_q_at t p 1, fun k hk => update_q_other t p k 1 hk⟩,
    ⟨update_q t p (-(1 / 2)), rfl, update_q_at t p (-(1 / 2)),
      fun k hk => update_q_other t p k (-(1 / 2)) hk⟩,
    ⟨update_q t p (-1), rfl, update_q_at t p (-1),
      fun k hk => update_q_other t p k (-1) hk⟩⟩

end TicTacToe
